import Mathlib

/-!
Verification of the binary Gravitational Search Algorithm (GSA) feature-selection
engine implemented in `GSA2.2.PY` (repository Algoritmos_Bioinspirados).

The numeric core is embedded over the real numbers; every random draw made by the
Python code (`np.random.randint`, `np.random.rand`) is modelled as an explicit
oracle (`RNG`) indexed by the iteration counter and the agent/coordinate/pair the
code draws it for, so the stochastic structure (what is drawn per agent, per
coordinate, per ordered pair) is visible in the definitions.  The one runtime
fault the loop can raise — `np.min`/`np.max` on an empty fitness array when
`num_agents = 0` — is modelled with `Except`.
-/

namespace GSAVerify

noncomputable section

open Finset

/-- `eps = 1e-20`, the epsilon guard used throughout `GSA_feature_selection`. -/
def eps : ℝ := 1e-20

/-- `np.count_nonzero(binary_vector)` for an integer vector. -/
def count_nonzero {d : ℕ} (v : Fin d → ℤ) : ℕ :=
  (Finset.univ.filter fun k => v k ≠ 0).card

/-- `evaluate_solution` from `GSA2.2.PY`.  The external k-NN scoring subsystem
(train/test split, classifier, `accuracy_score`) is out of scope and is passed in
as the opaque function `acc_of`; the code invokes it only in the non-empty-mask
branch.  An all-zero mask short-circuits to the sentinel fitness `1.0`; otherwise
the fitness is `1 - (acc - 0.01 * (count_nonzero v / len v))`. -/
def evaluate_solution {d : ℕ} (acc_of : (Fin d → ℤ) → ℝ) (v : Fin d → ℤ) : ℝ :=
  if count_nonzero v = 0 then 1
  else 1 - (acc_of v - 0.01 * ((count_nonzero v : ℝ) / (d : ℝ)))

/-- `Finset.univ : Finset (Fin n)` is nonempty when `n ≠ 0`. -/
def univNe {n : ℕ} (hn : n ≠ 0) : (Finset.univ : Finset (Fin n)).Nonempty :=
  ⟨⟨0, Nat.pos_of_ne_zero hn⟩, Finset.mem_univ _⟩

/-- `best = np.min(fitness)` (requires a nonempty population, else numpy raises). -/
def bestOf {n : ℕ} (hn : n ≠ 0) (f : Fin n → ℝ) : ℝ :=
  Finset.univ.inf' (univNe hn) f

/-- `worst = np.max(fitness)`. -/
def worstOf {n : ℕ} (hn : n ≠ 0) (f : Fin n → ℝ) : ℝ :=
  Finset.univ.sup' (univNe hn) f

/-- `m = (fitness - worst) / (best - worst + eps)`: raw mass of each agent. -/
def rawMass {n : ℕ} (hn : n ≠ 0) (f : Fin n → ℝ) : Fin n → ℝ :=
  fun i => (f i - worstOf hn f) / (bestOf hn f - worstOf hn f + eps)

/-- `M = m / (np.sum(m) + eps)`: normalized mass of each agent. -/
def normMass {n : ℕ} (hn : n ≠ 0) (f : Fin n → ℝ) : Fin n → ℝ :=
  fun i => rawMass hn f i / ((∑ j, rawMass hn f j) + eps)

/-- `G = 100 * np.exp(-20 * t / max_iter)`: the decaying gravitational constant,
a pure function of the 0-based iteration index `t` and the horizon `max_iter`. -/
def Gconst (max_iter t : ℕ) : ℝ :=
  100 * Real.exp (-20 * (t : ℝ) / (max_iter : ℝ))

/-- `R = np.linalg.norm(X[i] - X[j])`: Euclidean distance between two agents'
binary positions, bits read as real coordinates. -/
def euclidDist {n d : ℕ} (X : Fin n → Fin d → ℤ) (i j : Fin n) : ℝ :=
  Real.sqrt (∑ k, ((X i k : ℝ) - (X j k : ℝ)) ^ 2)

/-- `force = G * M[i] * M[j] * (X[j] - X[i]) / (R + eps)`: the pairwise force
vector exerted on agent `i` by agent `j` (coordinate `k`). -/
def pairForce {n d : ℕ} (G : ℝ) (M : Fin n → ℝ) (X : Fin n → Fin d → ℤ)
    (i j : Fin n) : Fin d → ℝ :=
  fun k => G * M i * M j * ((X j k : ℝ) - (X i k : ℝ)) / (euclidDist X i j + eps)

/-- `total_force`: sum over `j ≠ i` of `np.random.rand() * force`, where the
oracle `r i j` is the one fresh scalar drawn for the ordered pair `(i, j)`; the
same scalar multiplies every coordinate of that pair's force vector. -/
def totalForce {n d : ℕ} (r : Fin n → Fin n → ℝ) (G : ℝ) (M : Fin n → ℝ)
    (X : Fin n → Fin d → ℤ) (i : Fin n) : Fin d → ℝ :=
  fun k => ∑ j ∈ Finset.univ.erase i, r i j * pairForce G M X i j k

/-- `a[i] = total_force / (M[i] + eps)`: acceleration of agent `i`. -/
def accel {n d : ℕ} (r : Fin n → Fin n → ℝ) (G : ℝ) (M : Fin n → ℝ)
    (X : Fin n → Fin d → ℤ) (i : Fin n) : Fin d → ℝ :=
  fun k => totalForce r G M X i k / (M i + eps)

/-- `1 / (1 + np.exp(-x))`: the sigmoid transfer applied to velocities. -/
def sigmoid (x : ℝ) : ℝ := 1 / (1 + Real.exp (-x))

/-- Index of the first minimal entry of `f`, i.e. `np.argmin(fitness)`. -/
def argminFin {n : ℕ} (hn : n ≠ 0) (f : Fin n → ℝ) : Fin n :=
  have hex : ∃ k : ℕ, ∃ hk : k < n, f ⟨k, hk⟩ = bestOf hn f := by
    obtain ⟨i, _, hi⟩ := Finset.exists_mem_eq_inf' (univNe hn) f
    exact ⟨i.1, i.2, hi.symm⟩
  have : DecidablePred fun k : ℕ => ∃ hk : k < n, f ⟨k, hk⟩ = bestOf hn f :=
    fun _ => Classical.propDecidable _
  ⟨Nat.find hex, (Nat.find_spec hex).1⟩

/-- The random draws consumed by one run, as an explicit oracle.
`init i k` models `np.random.randint(0, 2, (num_agents, dim))` (binary by
construction); `pairR t i j` the scalar `np.random.rand()` drawn for the ordered
pair `(i, j)` in iteration `t`; `velR t i k` the entry `(i, k)` of the matrix
`np.random.rand(num_agents, dim)` drawn for the velocity update of iteration `t`;
`binR t i k` the entry `(i, k)` of the matrix drawn for the binarization. -/
structure RNG (n d : ℕ) where
  init : Fin n → Fin d → Fin 2
  pairR : ℕ → Fin n → Fin n → ℝ
  velR : ℕ → Fin n → Fin d → ℝ
  binR : ℕ → Fin n → Fin d → ℝ

/-- The loop state of `GSA_feature_selection`.  `best` merges the Python
variables `best_fitness` / `best_position`: they start as `inf` / `None` and are
always written together under the same guard, so they are modelled as one
optional pair (`none` ↔ not yet set, `best_fitness = inf`). -/
structure GSAState (n d : ℕ) where
  X : Fin n → Fin d → ℤ
  V : Fin n → Fin d → ℝ
  best : Option (ℝ × (Fin d → ℤ))
  history_fitness : List ℝ
  history_num_features : List ℕ
  feature_selection_counter : Fin d → ℤ
  all_positions : List (Fin n → Fin d → ℤ)

/-- The one runtime fault the loop body can raise: `np.min` / `np.max` of an
empty fitness array (`num_agents = 0`), a numpy `ValueError`. -/
inductive GSAError where
  | emptyFitnessReduction : GSAError
deriving DecidableEq

/-- `fitness = np.array([evaluate_solution(agent) for agent in X])`: the fitness
vector of the current population. -/
def iterFit {n d : ℕ} (acc_of : (Fin d → ℤ) → ℝ) (s : GSAState n d) :
    Fin n → ℝ :=
  fun i => evaluate_solution acc_of (s.X i)

/-- The best fitness found in the current iteration, `best = np.min(fitness)`. -/
def iterBest {n d : ℕ} (acc_of : (Fin d → ℤ) → ℝ) (s : GSAState n d)
    (hn : n ≠ 0) : ℝ :=
  bestOf hn (iterFit acc_of s)

/-- Lines 76–79 of `GSA2.2.PY`: overwrite the global best fitness/position pair
exactly when the iteration best is strictly smaller (`best < best_fitness`,
where the unset initial state compares as `+inf`). -/
def updBest {n d : ℕ} (hn : n ≠ 0) (fitness : Fin n → ℝ)
    (X : Fin n → Fin d → ℤ) (old : Option (ℝ × (Fin d → ℤ))) :
    ℝ × (Fin d → ℤ) :=
  match old with
  | none => (bestOf hn fitness, X (argminFin hn fitness))
  | some (c, p) =>
    if bestOf hn fitness < c then (bestOf hn fitness, X (argminFin hn fitness))
    else (c, p)

/-- The body of one iteration `t` of the main loop (lines 70–115 of
`GSA2.2.PY`), for a nonempty population: fitness evaluation, best-so-far update
(strict `<`), masses, decayed `G`, pairwise forces and accelerations, velocity
update with a fresh random scalar per agent *and* per coordinate, sigmoid
binarization, and the history/counter accumulators. -/
def stepState {n d : ℕ} (acc_of : (Fin d → ℤ) → ℝ) (max_iter : ℕ) (rng : RNG n d)
    (t : ℕ) (s : GSAState n d) (hn : n ≠ 0) : GSAState n d :=
  let fitness := iterFit acc_of s
  let newBest := updBest hn fitness s.X s.best
  let M := normMass hn fitness
  let G := Gconst max_iter t
  let a : Fin n → Fin d → ℝ := fun i => accel (rng.pairR t) G M s.X i
  let V' : Fin n → Fin d → ℝ := fun i k => rng.velR t i k * s.V i k + a i k
  let X' : Fin n → Fin d → ℤ := fun i k => if rng.binR t i k < sigmoid (V' i k) then 1 else 0
  { X := X'
    V := V'
    best := some newBest
    history_fitness := s.history_fitness ++ [newBest.1]
    history_num_features := s.history_num_features ++ [count_nonzero newBest.2]
    feature_selection_counter := fun k => s.feature_selection_counter k + ∑ i, X' i k
    all_positions := s.all_positions ++ [X'] }

/-- One iteration of the main loop; raises (as numpy would at `np.min`) when the
population is empty, otherwise takes a `stepState` step. -/
def gsa_step {n d : ℕ} (acc_of : (Fin d → ℤ) → ℝ) (max_iter : ℕ) (rng : RNG n d)
    (t : ℕ) (s : GSAState n d) : Except GSAError (GSAState n d) :=
  if hn : n = 0 then .error .emptyFitnessReduction
  else .ok (stepState acc_of max_iter rng t s hn)

/-- `for t in range(max_iter)` driver: runs `fuel` iterations starting at
iteration counter `t`, propagating the first error. -/
def gsa_loop {n d : ℕ} (acc_of : (Fin d → ℤ) → ℝ) (max_iter : ℕ) (rng : RNG n d) :
    ℕ → ℕ → GSAState n d → Except GSAError (GSAState n d)
  | _, 0, s => .ok s
  | t, fuel + 1, s =>
    match gsa_step acc_of max_iter rng t s with
    | .error e => .error e
    | .ok s' => gsa_loop acc_of max_iter rng (t + 1) fuel s'

/-- The state before iteration 0: random binary positions, zero velocities,
unset best, empty histories and counters (lines 56–67 of `GSA2.2.PY`). -/
def initState (n d : ℕ) (rng : RNG n d) : GSAState n d :=
  { X := fun i k => ((rng.init i k : ℕ) : ℤ)
    V := fun _ _ => 0
    best := none
    history_fitness := []
    history_num_features := []
    feature_selection_counter := fun _ => 0
    all_positions := [] }

/-- Full run of the optimization loop: `max_iter` iterations from the initial
state, with the iteration counter starting at 0. -/
def GSA_run (num_agents max_iter dim : ℕ) (acc_of : (Fin dim → ℤ) → ℝ)
    (rng : RNG num_agents dim) : Except GSAError (GSAState num_agents dim) :=
  gsa_loop acc_of max_iter rng 0 max_iter (initState num_agents dim rng)

/-- The tuple returned by `GSA_feature_selection` (line 119): best position,
`1.0 - best_fitness` (the associated accuracy; `none` models the `None` /
`-inf` pair produced when no iteration ran), and the histories.  -/
structure GSAReturn (n d : ℕ) where
  best_position : Option (Fin d → ℤ)
  best_accuracy : Option ℝ
  history_fitness : List ℝ
  history_num_features : List ℕ
  feature_selection_counter : Fin d → ℤ
  all_positions : List (Fin n → Fin d → ℤ)

/-- `GSA_feature_selection(num_agents, max_iter, dim)`: run the loop and return
the result tuple.  Note the function performs no validation of its
configuration parameters. -/
def GSA_feature_selection (num_agents max_iter dim : ℕ)
    (acc_of : (Fin dim → ℤ) → ℝ) (rng : RNG num_agents dim) :
    Except GSAError (GSAReturn num_agents dim) :=
  (GSA_run num_agents max_iter dim acc_of rng).map fun s =>
    { best_position := s.best.map Prod.snd
      best_accuracy := s.best.map fun bp => 1 - bp.1
      history_fitness := s.history_fitness
      history_num_features := s.history_num_features
      feature_selection_counter := s.feature_selection_counter
      all_positions := s.all_positions }

/-- A trivial external scorer, used to instantiate witnesses. -/
def zeroScore (d : ℕ) : (Fin d → ℤ) → ℝ := fun _ => 0

/-- A concrete deterministic oracle (all draws 0), used in witnesses. -/
def zeroRNG (n d : ℕ) : RNG n d :=
  { init := fun _ _ => 0
    pairR := fun _ _ _ => 0
    velR := fun _ _ _ => 0
    binR := fun _ _ _ => 0 }

/-- Acceleration of agent `i` written exactly as §4.3 of the spec words it: for
every ordered pair `(i, j)` with `j ≠ i`, the pairwise force
`G · M_i · M_j · (position_j − position_i) / (R_ij + ε)` with `R_ij` the
Euclidean distance between the two binary positions, scaled by the fresh
per-ordered-pair random scalar before accumulation; the accumulated total force
divided by `M_i + ε`. -/
def spec_accel {n d : ℕ} (r : Fin n → Fin n → ℝ) (G : ℝ) (M : Fin n → ℝ)
    (X : Fin n → Fin d → ℤ) (i : Fin n) : Fin d → ℝ :=
  fun k =>
    (∑ j ∈ Finset.univ.erase i,
      r i j * (G * M i * M j * ((X j k : ℝ) - (X i k : ℝ)) /
        (Real.sqrt (∑ l, ((X i l : ℝ) - (X j l : ℝ)) ^ 2) + eps))) / (M i + eps)

lemma eps_pos : 0 < eps := by norm_num [eps]

/-- C8: the gravitational constant is the pure function
`G(t) = 100 · exp(−20 · t / max_iter)` of the iteration index, strictly
positive, and non-increasing in `t`. -/
theorem Gconst_positive_antitone (max_iter t t' : ℕ) (h : t ≤ t') :
    Gconst max_iter t = 100 * Real.exp (-20 * (t : ℝ) / (max_iter : ℝ)) ∧
    0 < Gconst max_iter t ∧ Gconst max_iter t' ≤ Gconst max_iter t := by
  refine ⟨rfl, by unfold Gconst; positivity, ?_⟩
  unfold Gconst
  have hexp : Real.exp (-20 * (t' : ℝ) / (max_iter : ℝ)) ≤
      Real.exp (-20 * (t : ℝ) / (max_iter : ℝ)) := by
    apply Real.exp_le_exp.mpr
    rcases Nat.eq_zero_or_pos max_iter with hT | hT
    · simp [hT]
    · have hT' : (0 : ℝ) < (max_iter : ℝ) := by exact_mod_cast hT
      have ht : (t : ℝ) ≤ (t' : ℝ) := by exact_mod_cast h
      rw [div_le_div_iff₀ hT' hT']
      nlinarith
  linarith

/-- C8 witness: instance of `Gconst_positive_antitone` at `max_iter = 40`,
`t = 1 ≤ t' = 2`. -/
theorem Gconst_positive_antitone_witness :
    Gconst 40 1 = 100 * Real.exp (-20 * (1 : ℝ) / (40 : ℝ)) ∧
    0 < Gconst 40 1 ∧ Gconst 40 2 ≤ Gconst 40 1 := by
  have h := Gconst_positive_antitone 40 1 2 (by decide)
  simpa using h

/-- C4: for an all-zero mask `evaluate_solution` returns the sentinel fitness 1
without consulting the external scorer (the result is the same for any two
scorers); for a mask with at least one selected feature it returns
`1 − (score − 0.01 · selectedCount / d)`. -/
theorem evaluate_solution_spec {d : ℕ} (acc1 acc2 : (Fin d → ℤ) → ℝ)
    (v : Fin d → ℤ) :
    (count_nonzero v = 0 →
      evaluate_solution acc1 v = 1 ∧
      evaluate_solution acc1 v = evaluate_solution acc2 v) ∧
    (count_nonzero v ≠ 0 →
      evaluate_solution acc1 v =
        1 - (acc1 v - 0.01 * ((count_nonzero v : ℝ) / (d : ℝ)))) := by
  constructor
  · intro h
    simp [evaluate_solution, h]
  · intro h
    simp [evaluate_solution, h]

/-- C4 witness: the theorem applied to the all-zero mask of length 2 (with two
different scorers) and to the mask `[1, 0]`. -/
theorem evaluate_solution_spec_witness :
    (evaluate_solution (zeroScore 2) (fun _ : Fin 2 => (0 : ℤ)) = 1 ∧
      evaluate_solution (zeroScore 2) (fun _ : Fin 2 => (0 : ℤ)) =
        evaluate_solution (fun _ => 1 / 2) (fun _ : Fin 2 => (0 : ℤ))) ∧
    evaluate_solution (zeroScore 2) (fun k : Fin 2 => if k = 0 then (1 : ℤ) else 0) =
      1 - (zeroScore 2 (fun k : Fin 2 => if k = 0 then (1 : ℤ) else 0) -
        0.01 * ((count_nonzero (fun k : Fin 2 => if k = 0 then (1 : ℤ) else 0) : ℝ) / (2 : ℝ))) :=
  ⟨(evaluate_solution_spec (zeroScore 2) (fun _ => 1 / 2) _).1 (by decide),
   (evaluate_solution_spec (zeroScore 2) (zeroScore 2) _).2 (by decide)⟩

/-- C3 counterexample: with the invalid configuration `max_iter = 0` (and
positive `num_agents`, `dim`) the entry point does not signal any error — it
silently returns a degenerate result (no best position, empty histories),
refuting the fail-fast claim. -/
theorem no_fail_fast_cex :
    GSA_feature_selection 2 0 3 (zeroScore 3) (zeroRNG 2 3) =
      .ok { best_position := none, best_accuracy := none, history_fitness := [],
            history_num_features := [], feature_selection_counter := fun _ => 0,
            all_positions := [] } := rfl

/-- C3 amended: `GSA_feature_selection` performs no configuration validation;
with `max_iter = 0` it executes zero iterations and silently returns the
degenerate tuple (no best position, `None` accuracy, empty histories, all-zero
counter) instead of signalling an error. -/
theorem zero_iterations_returns_ok (n d : ℕ) (acc_of : (Fin d → ℤ) → ℝ)
    (rng : RNG n d) :
    GSA_feature_selection n 0 d acc_of rng =
      .ok { best_position := none, best_accuracy := none, history_fitness := [],
            history_num_features := [], feature_selection_counter := fun _ => 0,
            all_positions := [] } := rfl

/-- C7: the acceleration computed by the engine (lines 89–100) coincides with
the spec's §4.3 formula: each pairwise force
`G·M_i·M_j·(position_j − position_i)/(R_ij + ε)` is scaled by the single fresh
random scalar of its ordered pair (the same scalar for every coordinate),
accumulated over `j ≠ i`, and the total is divided by `M_i + ε`. -/
theorem accel_matches_spec_formula {n d : ℕ} (r : Fin n → Fin n → ℝ) (G : ℝ)
    (M : Fin n → ℝ) (X : Fin n → Fin d → ℤ) (i : Fin n) (k : Fin d) :
    accel r G M X i k = spec_accel r G M X i k ∧
    accel r G M X i k = totalForce r G M X i k / (M i + eps) ∧
    totalForce r G M X i k =
      ∑ j ∈ Finset.univ.erase i, r i j * pairForce G M X i j k := by
  refine ⟨?_, rfl, rfl⟩
  simp only [accel, spec_accel, totalForce, pairForce, euclidDist]

lemma one_ne0 : (1 : ℕ) ≠ 0 := by decide

lemma two_ne0 : (2 : ℕ) ≠ 0 := by decide

lemma bestOf_le {n : ℕ} (hn : n ≠ 0) (f : Fin n → ℝ) (i : Fin n) :
    bestOf hn f ≤ f i :=
  Finset.inf'_le _ (Finset.mem_univ i)

lemma le_worstOf {n : ℕ} (hn : n ≠ 0) (f : Fin n → ℝ) (i : Fin n) :
    f i ≤ worstOf hn f :=
  Finset.le_sup' _ (Finset.mem_univ i)

lemma exists_eq_bestOf {n : ℕ} (hn : n ≠ 0) (f : Fin n → ℝ) :
    ∃ i, f i = bestOf hn f := by
  obtain ⟨i, _, hi⟩ := Finset.exists_mem_eq_inf' (univNe hn) f
  exact ⟨i, hi.symm⟩

lemma bestOf_allEq {n : ℕ} (hn : n ≠ 0) (f : Fin n → ℝ)
    (h : ∀ a b, f a = f b) (i : Fin n) : bestOf hn f = f i :=
  le_antisymm (bestOf_le hn f i) (Finset.le_inf' _ _ fun b _ => (h i b).le)

lemma worstOf_allEq {n : ℕ} (hn : n ≠ 0) (f : Fin n → ℝ)
    (h : ∀ a b, f a = f b) (i : Fin n) : worstOf hn f = f i :=
  le_antisymm (Finset.sup'_le _ _ fun b _ => (h b i).le) (le_worstOf hn f i)

lemma rawMass_allEq {n : ℕ} (hn : n ≠ 0) (f : Fin n → ℝ)
    (h : ∀ a b, f a = f b) (i : Fin n) : rawMass hn f i = 0 := by
  unfold rawMass
  rw [worstOf_allEq hn f h i, sub_self, zero_div]

lemma normMass_allEq {n : ℕ} (hn : n ≠ 0) (f : Fin n → ℝ)
    (h : ∀ a b, f a = f b) (i : Fin n) : normMass hn f i = 0 := by
  unfold normMass
  rw [rawMass_allEq hn f h i, zero_div]

lemma sum_rawMass_allEq {n : ℕ} (hn : n ≠ 0) (f : Fin n → ℝ)
    (h : ∀ a b, f a = f b) : ∑ i, rawMass hn f i = 0 :=
  Finset.sum_eq_zero fun i _ => rawMass_allEq hn f h i

lemma rawMass_nonneg {n : ℕ} (hn : n ≠ 0) (f : Fin n → ℝ)
    (h : eps < worstOf hn f - bestOf hn f) (i : Fin n) : 0 ≤ rawMass hn f i := by
  unfold rawMass
  have h1 : f i - worstOf hn f ≤ 0 := sub_nonpos.mpr (le_worstOf hn f i)
  have h2 : bestOf hn f - worstOf hn f + eps < 0 := by linarith
  rw [show f i - worstOf hn f = -(worstOf hn f - f i) by ring,
      show bestOf hn f - worstOf hn f + eps =
        -(worstOf hn f - bestOf hn f - eps) by ring, neg_div_neg_eq]
  exact div_nonneg (by linarith) (by linarith)

lemma one_lt_sum_rawMass {n : ℕ} (hn : n ≠ 0) (f : Fin n → ℝ)
    (h : eps < worstOf hn f - bestOf hn f) : 1 < ∑ i, rawMass hn f i := by
  obtain ⟨i0, hi0⟩ := exists_eq_bestOf hn f
  have hm : 1 < rawMass hn f i0 := by
    unfold rawMass
    rw [hi0]
    rw [show bestOf hn f - worstOf hn f = -(worstOf hn f - bestOf hn f) by ring,
        show -(worstOf hn f - bestOf hn f) + eps =
          -((worstOf hn f - bestOf hn f) - eps) by ring,
        neg_div_neg_eq]
    rw [one_lt_div (by linarith [eps_pos])]
    linarith [eps_pos]
  calc (1 : ℝ) < rawMass hn f i0 := hm
    _ ≤ ∑ i, rawMass hn f i :=
      Finset.single_le_sum (fun i _ => rawMass_nonneg hn f h i) (Finset.mem_univ i0)

lemma normMass_mem_Icc {n : ℕ} (hn : n ≠ 0) (f : Fin n → ℝ)
    (h : eps < worstOf hn f - bestOf hn f) (i : Fin n) :
    normMass hn f i ∈ Set.Icc (0 : ℝ) 1 := by
  have hsum := one_lt_sum_rawMass hn f h
  have hpos : 0 < (∑ j, rawMass hn f j) + eps := by linarith [eps_pos]
  constructor
  · exact div_nonneg (rawMass_nonneg hn f h i) hpos.le
  · rw [normMass, div_le_one hpos]
    have hle : rawMass hn f i ≤ ∑ j, rawMass hn f j :=
      Finset.single_le_sum (fun j _ => rawMass_nonneg hn f h j) (Finset.mem_univ i)
    linarith [eps_pos]

lemma sum_normMass_near_one {n : ℕ} (hn : n ≠ 0) (f : Fin n → ℝ)
    (h : eps < worstOf hn f - bestOf hn f) :
    |(∑ i, normMass hn f i) - 1| < eps := by
  have hsum := one_lt_sum_rawMass hn f h
  have hpos : 0 < (∑ j, rawMass hn f j) + eps := by linarith [eps_pos]
  have heq : (∑ i, normMass hn f i) =
      (∑ j, rawMass hn f j) / ((∑ j, rawMass hn f j) + eps) := by
    unfold normMass
    rw [← Finset.sum_div]
  rw [heq]
  have h1 : (∑ j, rawMass hn f j) / ((∑ j, rawMass hn f j) + eps) - 1 =
      -(eps / ((∑ j, rawMass hn f j) + eps)) := by
    field_simp
  rw [h1, abs_neg, abs_of_pos (div_pos eps_pos hpos)]
  exact div_lt_self eps_pos (by linarith [eps_pos])

/-- C2 counterexample: when every agent has identical fitness (here two agents,
fitness 1), every normalized mass is exactly 0 and the masses sum to 0 — a
distance of 1 from the claimed sum of 1, far beyond any numerical epsilon, and
an all-zero (not near-uniform) distribution. -/
theorem mass_degenerate_all_zero_cex :
    (∀ i : Fin 2, normMass two_ne0 (fun _ => (1 : ℝ)) i = 0) ∧
    (∑ i : Fin 2, normMass two_ne0 (fun _ => (1 : ℝ)) i) = 0 ∧
    |(∑ i : Fin 2, normMass two_ne0 (fun _ => (1 : ℝ)) i) - 1| = 1 := by
  have hz : ∀ i : Fin 2, normMass two_ne0 (fun _ => (1 : ℝ)) i = 0 :=
    normMass_allEq two_ne0 _ fun _ _ => rfl
  have hs : (∑ i : Fin 2, normMass two_ne0 (fun _ => (1 : ℝ)) i) = 0 :=
    Finset.sum_eq_zero fun i _ => hz i
  refine ⟨hz, hs, ?_⟩
  rw [hs]
  norm_num

/-- C2 amended: whenever the population's fitness spread exceeds ε, every
normalized mass lies in [0, 1] and the masses sum to 1 within ε; but when all
agents share identical fitness, every normalized mass is exactly 0 and the sum
is 0 (an all-zero degenerate distribution, not a near-uniform one). -/
theorem mass_bounds_and_degenerate {n : ℕ} (hn : n ≠ 0) (f : Fin n → ℝ) :
    (eps < worstOf hn f - bestOf hn f →
      (∀ i, normMass hn f i ∈ Set.Icc (0 : ℝ) 1) ∧
      |(∑ i, normMass hn f i) - 1| < eps) ∧
    ((∀ a b, f a = f b) →
      (∀ i, normMass hn f i = 0) ∧ (∑ i, normMass hn f i) = 0) := by
  constructor
  · intro h
    exact ⟨normMass_mem_Icc hn f h, sum_normMass_near_one hn f h⟩
  · intro h
    exact ⟨normMass_allEq hn f h,
      Finset.sum_eq_zero fun i _ => normMass_allEq hn f h i⟩

/-- C2 witness: the amended theorem applied to the fitness vectors `[0, 1]`
(spread 1 > ε) and `[5, 5]` (identical fitness). -/
theorem mass_bounds_and_degenerate_witness :
    ((∀ i, normMass two_ne0 (fun i : Fin 2 => ((i : ℕ) : ℝ)) i ∈ Set.Icc (0 : ℝ) 1) ∧
      |(∑ i, normMass two_ne0 (fun i : Fin 2 => ((i : ℕ) : ℝ)) i) - 1| < eps) ∧
    ((∀ i, normMass two_ne0 (fun _ : Fin 2 => (5 : ℝ)) i = 0) ∧
      (∑ i, normMass two_ne0 (fun _ : Fin 2 => (5 : ℝ)) i) = 0) := by
  constructor
  · apply (mass_bounds_and_degenerate two_ne0 _).1
    have hb : bestOf two_ne0 (fun i : Fin 2 => ((i : ℕ) : ℝ)) ≤ 0 := by
      simpa using bestOf_le two_ne0 (fun i : Fin 2 => ((i : ℕ) : ℝ)) 0
    have hw : (1 : ℝ) ≤ worstOf two_ne0 (fun i : Fin 2 => ((i : ℕ) : ℝ)) := by
      simpa using le_worstOf two_ne0 (fun i : Fin 2 => ((i : ℕ) : ℝ)) 1
    have he : eps < 1 := by norm_num [eps]
    linarith
  · exact (mass_bounds_and_degenerate two_ne0 (fun _ : Fin 2 => (5 : ℝ))).2
      fun _ _ => rfl

/-- C9: under each numerical degeneracy the ε-guarded denominators of the
engine are nonzero — identical fitness across the population makes the raw-mass
denominator `best − worst + ε` equal to ε ≠ 0 and the normalization denominator
`Σm + ε` equal to ε ≠ 0; zero inter-agent distance makes the force denominator
`R + ε` equal to ε ≠ 0; zero mass makes the acceleration denominator `M_i + ε`
equal to ε ≠ 0. -/
theorem epsilon_guards_nonzero {n d : ℕ} (hn : n ≠ 0) (f : Fin n → ℝ)
    (X : Fin n → Fin d → ℤ) (i j : Fin n) :
    ((∀ a b, f a = f b) →
      bestOf hn f - worstOf hn f + eps ≠ 0 ∧
      (∑ a, rawMass hn f a) + eps ≠ 0) ∧
    (euclidDist X i j = 0 → euclidDist X i j + eps ≠ 0) ∧
    (normMass hn f i = 0 → normMass hn f i + eps ≠ 0) := by
  refine ⟨?_, ?_, ?_⟩
  · intro h
    have i0 : Fin n := ⟨0, Nat.pos_of_ne_zero hn⟩
    constructor
    · rw [bestOf_allEq hn f h i0, worstOf_allEq hn f h i0, sub_self, zero_add]
      exact eps_pos.ne'
    · rw [sum_rawMass_allEq hn f h, zero_add]
      exact eps_pos.ne'
  · intro h
    rw [h, zero_add]
    exact eps_pos.ne'
  · intro h
    rw [h, zero_add]
    exact eps_pos.ne'

/-- C9 witness: the theorem applied to one agent with fitness 0 at the zero
position (identical fitness, inter-agent distance 0, mass 0). -/
theorem epsilon_guards_nonzero_witness :
    (bestOf one_ne0 (fun _ : Fin 1 => (0 : ℝ)) -
        worstOf one_ne0 (fun _ : Fin 1 => (0 : ℝ)) + eps ≠ 0 ∧
      (∑ a, rawMass one_ne0 (fun _ : Fin 1 => (0 : ℝ)) a) + eps ≠ 0) ∧
    euclidDist (fun _ _ : Fin 1 => (0 : ℤ)) 0 0 + eps ≠ 0 ∧
    normMass one_ne0 (fun _ : Fin 1 => (0 : ℝ)) 0 + eps ≠ 0 := by
  have h := epsilon_guards_nonzero one_ne0 (fun _ : Fin 1 => (0 : ℝ))
    (fun _ _ : Fin 1 => (0 : ℤ)) 0 0
  refine ⟨h.1 fun _ _ => rfl, h.2.1 ?_, h.2.2 ?_⟩
  · simp [euclidDist]
  · exact normMass_allEq one_ne0 (fun _ : Fin 1 => (0 : ℝ)) (fun _ _ => rfl) 0

lemma gsa_step_ok {n d : ℕ} (acc_of : (Fin d → ℤ) → ℝ) (max_iter : ℕ)
    (rng : RNG n d) (t : ℕ) (s : GSAState n d) (hn : n ≠ 0) :
    gsa_step acc_of max_iter rng t s = .ok (stepState acc_of max_iter rng t s hn) := by
  unfold gsa_step
  rw [dif_neg hn]

lemma updBest_some {n d : ℕ} (hn : n ≠ 0) (fitness : Fin n → ℝ)
    (X : Fin n → Fin d → ℤ) (c : ℝ) (p : Fin d → ℤ) :
    updBest hn fitness X (some (c, p)) =
      if bestOf hn fitness < c then (bestOf hn fitness, X (argminFin hn fitness))
      else (c, p) := rfl

lemma updBest_fst_le {n d : ℕ} (hn : n ≠ 0) (fitness : Fin n → ℝ)
    (X : Fin n → Fin d → ℤ) (c : ℝ) (p : Fin d → ℤ) :
    (updBest hn fitness X (some (c, p))).1 ≤ c := by
  rw [updBest_some]
  by_cases h : bestOf hn fitness < c
  · rw [if_pos h]
    exact h.le
  · rw [if_neg h]

lemma updBest_stay {n d : ℕ} (hn : n ≠ 0) (fitness : Fin n → ℝ)
    (X : Fin n → Fin d → ℤ) (c : ℝ) (p : Fin d → ℤ)
    (h : ¬ bestOf hn fitness < c) :
    updBest hn fitness X (some (c, p)) = (c, p) := by
  rw [updBest_some, if_neg h]

lemma updBest_improve {n d : ℕ} (hn : n ≠ 0) (fitness : Fin n → ℝ)
    (X : Fin n → Fin d → ℤ) (c : ℝ) (p : Fin d → ℤ)
    (h : bestOf hn fitness < c) :
    updBest hn fitness X (some (c, p)) =
      (bestOf hn fitness, X (argminFin hn fitness)) := by
  rw [updBest_some, if_pos h]

/-- The loop invariant maintained by `gsa_step` across iterations: positions
(current and all recorded snapshots) are binary, the recorded best-fitness
history is non-increasing and bounded below by the current global best, and the
per-feature counter equals the accumulated column sums of the snapshots. -/
structure Inv {n d : ℕ} (s : GSAState n d) : Prop where
  xbin : ∀ i k, s.X i k = 0 ∨ s.X i k = 1
  snapbin : ∀ A ∈ s.all_positions, ∀ i k, A i k = 0 ∨ A i k = 1
  chain : s.history_fitness.Chain' fun x y => y ≤ x
  bestlink : ∀ c p, s.best = some (c, p) → ∀ x ∈ s.history_fitness, c ≤ x
  bestnone : s.best = none → s.history_fitness = []
  counter : ∀ k, s.feature_selection_counter k =
    (s.all_positions.map fun A => ∑ i, A i k).sum

lemma initState_inv (n d : ℕ) (rng : RNG n d) : Inv (initState n d rng) := by
  constructor
  · intro i k
    have h2 := (rng.init i k).isLt
    simp only [initState]
    omega
  · intro A hA
    simp [initState] at hA
  · simp [initState]
  · intro c p h
    simp [initState] at h
  · intro _
    rfl
  · intro k
    rfl

lemma stepState_X_binary {n d : ℕ} (acc_of : (Fin d → ℤ) → ℝ) (max_iter : ℕ)
    (rng : RNG n d) (t : ℕ) (s : GSAState n d) (hn : n ≠ 0) (i : Fin n) (k : Fin d) :
    (stepState acc_of max_iter rng t s hn).X i k = 0 ∨
    (stepState acc_of max_iter rng t s hn).X i k = 1 := by
  simp only [stepState]
  split
  · exact Or.inr rfl
  · exact Or.inl rfl

lemma stepState_inv {n d : ℕ} (acc_of : (Fin d → ℤ) → ℝ) (max_iter : ℕ)
    (rng : RNG n d) (t : ℕ) (s : GSAState n d) (hn : n ≠ 0) (hs : Inv s) :
    Inv (stepState acc_of max_iter rng t s hn) := by
  have hXb := stepState_X_binary acc_of max_iter rng t s hn
  constructor
  · exact hXb
  · intro A hA i k
    simp only [stepState, List.mem_append, List.mem_singleton] at hA
    rcases hA with hA | hA
    · exact hs.snapbin A hA i k
    · subst hA
      exact hXb i k
  · show (s.history_fitness ++ [(updBest hn (iterFit acc_of s) s.X s.best).1]).Chain'
      fun x y => y ≤ x
    rw [List.chain'_append]
    refine ⟨hs.chain, List.chain'_singleton _, ?_⟩
    intro x hx y hy
    simp only [List.head?_cons, Option.mem_def, Option.some.injEq] at hy
    subst hy
    have hxmem : x ∈ s.history_fitness := List.mem_of_mem_getLast? hx
    cases hbest : s.best with
    | none =>
      rw [hs.bestnone hbest] at hxmem
      simp at hxmem
    | some cp =>
      obtain ⟨c, p⟩ := cp
      calc (updBest hn (iterFit acc_of s) s.X (some (c, p))).1 ≤ c :=
            updBest_fst_le hn _ s.X c p
        _ ≤ x := hs.bestlink c p hbest x hxmem
  · intro c p h x hx
    simp only [stepState, Option.some.injEq] at h
    have hfst : (updBest hn (iterFit acc_of s) s.X s.best).1 = c :=
      congrArg Prod.fst h
    simp only [stepState, List.mem_append, List.mem_singleton] at hx
    rcases hx with hx | hx
    · cases hbest : s.best with
      | none =>
        rw [hs.bestnone hbest] at hx
        simp at hx
      | some cp =>
        obtain ⟨c', p'⟩ := cp
        have h1 : (updBest hn (iterFit acc_of s) s.X (some (c', p'))).1 ≤ c' :=
          updBest_fst_le hn _ s.X c' p'
        have h2 : c' ≤ x := hs.bestlink c' p' hbest x hx
        rw [hbest] at hfst
        linarith
    · subst hx
      exact hfst.ge
  · intro h
    simp [stepState] at h
  · intro k
    simp only [stepState, List.map_append, List.map_cons, List.map_nil,
      List.sum_append, List.sum_cons, List.sum_nil]
    rw [hs.counter k]
    ring

lemma gsa_loop_ok_inv {n d : ℕ} (acc_of : (Fin d → ℤ) → ℝ) (max_iter : ℕ)
    (rng : RNG n d) (hn : n ≠ 0) :
    ∀ (fuel t : ℕ) (s : GSAState n d), Inv s →
      ∃ s', gsa_loop acc_of max_iter rng t fuel s = .ok s' ∧ Inv s' ∧
        s'.all_positions.length = s.all_positions.length + fuel := by
  intro fuel
  induction fuel with
  | zero =>
    intro t s h
    exact ⟨s, rfl, h, by simp⟩
  | succ fuel ih =>
    intro t s h
    obtain ⟨s', h1, h2, h3⟩ := ih (t + 1) (stepState acc_of max_iter rng t s hn)
      (stepState_inv acc_of max_iter rng t s hn h)
    refine ⟨s', ?_, h2, ?_⟩
    · rw [gsa_loop, gsa_step_ok acc_of max_iter rng t s hn]
      exact h1
    · have hlen : (stepState acc_of max_iter rng t s hn).all_positions.length =
          s.all_positions.length + 1 := by
        simp [stepState]
      omega

lemma GSA_run_ok_inv (n max_iter d : ℕ) (acc_of : (Fin d → ℤ) → ℝ)
    (rng : RNG n d) (hn : n ≠ 0) :
    ∃ s', GSA_run n max_iter d acc_of rng = .ok s' ∧ Inv s' ∧
      s'.all_positions.length = max_iter := by
  obtain ⟨s', h1, h2, h3⟩ := gsa_loop_ok_inv acc_of max_iter rng hn max_iter 0
    (initState n d rng) (initState_inv n d rng)
  refine ⟨s', h1, h2, ?_⟩
  rw [h3]
  show (initState n d rng).all_positions.length + max_iter = max_iter
  simp [initState]

lemma GSA_feature_selection_ok_inv (n max_iter d : ℕ) (acc_of : (Fin d → ℤ) → ℝ)
    (rng : RNG n d) (hn : n ≠ 0) :
    ∃ s', GSA_feature_selection n max_iter d acc_of rng = .ok
        { best_position := s'.best.map Prod.snd
          best_accuracy := s'.best.map fun bp => 1 - bp.1
          history_fitness := s'.history_fitness
          history_num_features := s'.history_num_features
          feature_selection_counter := s'.feature_selection_counter
          all_positions := s'.all_positions } ∧
      Inv s' ∧ s'.all_positions.length = max_iter := by
  obtain ⟨s', h1, h2, h3⟩ := GSA_run_ok_inv n max_iter d acc_of rng hn
  refine ⟨s', ?_, h2, h3⟩
  rw [GSA_feature_selection, h1]
  rfl

/-- C5: for a nonempty population, the run completes without error and every
position matrix recorded after the binarization step of every iteration (the
`all_positions` snapshots) has every entry equal to 0 or 1; the snapshot list
has length `max_iter`, so it covers all iterations. -/
theorem positions_binary_all_iterations (n max_iter d : ℕ)
    (acc_of : (Fin d → ℤ) → ℝ) (rng : RNG n d) (hn : n ≠ 0) :
    ∃ out, GSA_feature_selection n max_iter d acc_of rng = .ok out ∧
      out.all_positions.length = max_iter ∧
      ∀ A ∈ out.all_positions, ∀ i k, A i k = 0 ∨ A i k = 1 := by
  obtain ⟨s', h1, h2, h3⟩ := GSA_feature_selection_ok_inv n max_iter d acc_of rng hn
  exact ⟨_, h1, h3, h2.snapbin⟩

/-- C5 witness: one agent, one feature, one iteration. -/
theorem positions_binary_all_iterations_witness :
    ∃ out, GSA_feature_selection 1 1 1 (zeroScore 1) (zeroRNG 1 1) = .ok out ∧
      out.all_positions.length = 1 ∧
      ∀ A ∈ out.all_positions, ∀ i k, A i k = 0 ∨ A i k = 1 :=
  positions_binary_all_iterations 1 1 1 (zeroScore 1) (zeroRNG 1 1) one_ne0

lemma sum_binary_eq_card {n : ℕ} (g : Fin n → ℤ)
    (hb : ∀ i, g i = 0 ∨ g i = 1) :
    (∑ i, g i) = ((Finset.univ.filter fun i => g i = 1).card : ℤ) := by
  rw [Finset.card_filter]
  push_cast
  apply Finset.sum_congr rfl
  intro i _
  rcases hb i with h | h <;> simp [h]

lemma list_sum_bounds (m : ℤ) :
    ∀ l : List ℤ, (∀ x ∈ l, 0 ≤ x ∧ x ≤ m) →
      0 ≤ l.sum ∧ l.sum ≤ m * l.length := by
  intro l
  induction l with
  | nil => intro _; simp
  | cons a l ih =>
    intro h
    obtain ⟨h1, h2⟩ := h a (List.mem_cons_self a l)
    obtain ⟨h3, h4⟩ := ih fun x hx => h x (List.mem_cons_of_mem _ hx)
    constructor
    · simp only [List.sum_cons]
      linarith
    · simp only [List.sum_cons, List.length_cons]
      push_cast
      linarith

/-- C10: the returned per-feature counter accumulates, every iteration, the
column sums of the whole population's post-update position matrix: entry `k`
equals the sum over all recorded snapshots of `∑_i X_{i,k}`, equivalently the
total number of (iteration, agent) pairs whose bit `k` is 1; hence each entry
lies in `[0, n · max_iter]`. -/
theorem feature_counter_column_sums (n max_iter d : ℕ)
    (acc_of : (Fin d → ℤ) → ℝ) (rng : RNG n d) (hn : n ≠ 0) :
    ∃ out, GSA_feature_selection n max_iter d acc_of rng = .ok out ∧
      out.all_positions.length = max_iter ∧
      (∀ k, out.feature_selection_counter k =
        (out.all_positions.map fun A => ∑ i, A i k).sum) ∧
      (∀ k, out.feature_selection_counter k =
        (out.all_positions.map fun A =>
          ((Finset.univ.filter fun i => A i k = 1).card : ℤ)).sum) ∧
      (∀ k, 0 ≤ out.feature_selection_counter k ∧
        out.feature_selection_counter k ≤ (n : ℤ) * (max_iter : ℤ)) := by
  obtain ⟨s', h1, h2, h3⟩ := GSA_feature_selection_ok_inv n max_iter d acc_of rng hn
  refine ⟨_, h1, h3, h2.counter, ?_, ?_⟩
  · intro k
    dsimp only
    rw [h2.counter k]
    apply congrArg
    apply List.map_congr_left
    intro A hA
    exact sum_binary_eq_card (fun i => A i k) fun i => h2.snapbin A hA i k
  · intro k
    dsimp only
    rw [h2.counter k]
    have hbnd : ∀ x ∈ (s'.all_positions.map fun A => ∑ i, A i k),
        0 ≤ x ∧ x ≤ (n : ℤ) := by
      intro x hx
      obtain ⟨A, hA, hAx⟩ := List.mem_map.mp hx
      subst hAx
      constructor
      · exact Finset.sum_nonneg fun i _ => by
          rcases h2.snapbin A hA i k with h | h <;> simp [h]
      · calc (∑ i, A i k) ≤ ∑ _i : Fin n, (1 : ℤ) :=
            Finset.sum_le_sum fun i _ => by
              rcases h2.snapbin A hA i k with h | h <;> simp [h]
          _ = (n : ℤ) := by simp
    have := list_sum_bounds (n : ℤ) _ hbnd
    rw [List.length_map, h3] at this
    exact this

/-- C10 witness: one agent, one feature, one iteration. -/
theorem feature_counter_column_sums_witness :
    ∃ out, GSA_feature_selection 1 1 1 (zeroScore 1) (zeroRNG 1 1) = .ok out ∧
      out.all_positions.length = 1 ∧
      (∀ k, out.feature_selection_counter k =
        (out.all_positions.map fun A => ∑ i, A i k).sum) ∧
      (∀ k, out.feature_selection_counter k =
        (out.all_positions.map fun A =>
          ((Finset.univ.filter fun i => A i k = 1).card : ℤ)).sum) ∧
      (∀ k, 0 ≤ out.feature_selection_counter k ∧
        out.feature_selection_counter k ≤ (1 : ℤ) * (1 : ℤ)) :=
  feature_counter_column_sums 1 1 1 (zeroScore 1) (zeroRNG 1 1) one_ne0

/-- C6: the global best is overwritten only on strict improvement — if the
iteration best is not strictly below the stored best fitness (ties included)
the stored pair is kept unchanged, and on strict improvement it is replaced by
the iteration best and the position of the first best agent; consequently the
recorded per-iteration best-fitness sequence of a full run is non-increasing. -/
theorem best_update_strict_and_history_antitone (n max_iter d : ℕ)
    (acc_of : (Fin d → ℤ) → ℝ) (rng : RNG n d) (hn : n ≠ 0) :
    (∀ (t : ℕ) (s : GSAState n d) (c : ℝ) (p : Fin d → ℤ),
      s.best = some (c, p) → ¬ iterBest acc_of s hn < c →
      ∃ s', gsa_step acc_of max_iter rng t s = .ok s' ∧ s'.best = some (c, p)) ∧
    (∀ (t : ℕ) (s : GSAState n d) (c : ℝ) (p : Fin d → ℤ),
      s.best = some (c, p) → iterBest acc_of s hn < c →
      ∃ s', gsa_step acc_of max_iter rng t s = .ok s' ∧
        s'.best = some (iterBest acc_of s hn,
          s.X (argminFin hn (iterFit acc_of s)))) ∧
    (∃ out, GSA_feature_selection n max_iter d acc_of rng = .ok out ∧
      out.history_fitness.Chain' fun x y => y ≤ x) := by
  refine ⟨?_, ?_, ?_⟩
  · intro t s c p h hge
    refine ⟨stepState acc_of max_iter rng t s hn,
      gsa_step_ok acc_of max_iter rng t s hn, ?_⟩
    show some (updBest hn (iterFit acc_of s) s.X s.best) = some (c, p)
    rw [h, updBest_stay hn _ s.X c p hge]
  · intro t s c p h hlt
    refine ⟨stepState acc_of max_iter rng t s hn,
      gsa_step_ok acc_of max_iter rng t s hn, ?_⟩
    show some (updBest hn (iterFit acc_of s) s.X s.best) = some _
    rw [h, updBest_improve hn _ s.X c p hlt]
    rfl
  · obtain ⟨s', h1, h2, _⟩ := GSA_feature_selection_ok_inv n max_iter d acc_of rng hn
    exact ⟨_, h1, h2.chain⟩

/-- A concrete one-agent state whose stored global best fitness is 1/2 (below
the fitness 1 of its all-zero position), used in witnesses. -/
def demoStateA : GSAState 1 1 :=
  { X := fun _ _ => 0
    V := fun _ _ => 0
    best := some (1 / 2, fun _ => 0)
    history_fitness := [1 / 2]
    history_num_features := [0]
    feature_selection_counter := fun _ => 0
    all_positions := [] }

/-- A concrete one-agent state whose stored global best fitness is 2 (above the
fitness 1 of its all-zero position), used in witnesses. -/
def demoStateB : GSAState 1 1 :=
  { demoStateA with best := some (2, fun _ => 0) }

lemma iterFit_zero_state (s : GSAState 1 1) (h : s.X = fun _ _ => 0) :
    iterFit (zeroScore 1) s = fun _ => 1 := by
  funext i
  have hc : count_nonzero (fun _ : Fin 1 => (0 : ℤ)) = 0 := by decide
  simp [iterFit, h, evaluate_solution, hc]

lemma iterBest_demoA : iterBest (zeroScore 1) demoStateA one_ne0 = 1 := by
  unfold iterBest
  rw [iterFit_zero_state demoStateA rfl]
  simp [bestOf]

lemma iterBest_demoB : iterBest (zeroScore 1) demoStateB one_ne0 = 1 := by
  unfold iterBest
  rw [iterFit_zero_state demoStateB rfl]
  simp [bestOf]

/-- C6 witness: the no-overwrite branch at a state with stored best 1/2 and
iteration best 1 (no strict improvement, ties excluded), the overwrite branch
at a state with stored best 2 and iteration best 1, and the antitone history of
a one-agent one-iteration run. -/
theorem best_update_strict_and_history_antitone_witness :
    (∃ s', gsa_step (zeroScore 1) 1 (zeroRNG 1 1) 0 demoStateA = .ok s' ∧
      s'.best = some (1 / 2, fun _ => 0)) ∧
    (∃ s', gsa_step (zeroScore 1) 1 (zeroRNG 1 1) 0 demoStateB = .ok s' ∧
      s'.best = some (iterBest (zeroScore 1) demoStateB one_ne0,
        demoStateB.X (argminFin one_ne0 (iterFit (zeroScore 1) demoStateB)))) ∧
    (∃ out, GSA_feature_selection 1 1 1 (zeroScore 1) (zeroRNG 1 1) = .ok out ∧
      out.history_fitness.Chain' fun x y => y ≤ x) := by
  have h := best_update_strict_and_history_antitone 1 1 1 (zeroScore 1)
    (zeroRNG 1 1) one_ne0
  refine ⟨h.1 0 demoStateA (1 / 2) (fun _ => 0) rfl ?_,
    h.2.1 0 demoStateB 2 (fun _ => 0) rfl ?_, h.2.2⟩
  · rw [iterBest_demoA]
    norm_num
  · rw [iterBest_demoB]
    norm_num

/-- Oracle for the C1 counterexample: in iteration 0 the velocity-update random
matrix has entry 0 for coordinate 0 and entry 1/2 for coordinate 1 of the same
agent — two different valid draws in [0, 1). -/
def cexRNG : RNG 1 2 :=
  { init := fun _ _ => 0
    pairR := fun _ _ _ => 0
    velR := fun _ _ k => if k = 0 then 0 else 1 / 2
    binR := fun _ _ _ => 0 }

/-- State for the C1 counterexample: one agent with previous velocity (1, 1). -/
def cexState : GSAState 1 2 :=
  { X := fun _ _ => 0
    V := fun _ _ => 1
    best := none
    history_fitness := []
    history_num_features := []
    feature_selection_counter := fun _ => 0
    all_positions := [] }

lemma accel_singleton {d : ℕ} (r : Fin 1 → Fin 1 → ℝ) (G : ℝ) (M : Fin 1 → ℝ)
    (X : Fin 1 → Fin d → ℤ) (i : Fin 1) (k : Fin d) :
    accel r G M X i k = 0 := by
  have hempty : Finset.univ.erase i = (∅ : Finset (Fin 1)) := by
    apply Finset.eq_empty_iff_forall_not_mem.mpr
    intro j hj
    exact (Finset.mem_erase.mp hj).1 (Subsingleton.elim j i)
  simp only [accel, totalForce]
  rw [hempty, Finset.sum_empty, zero_div]

/-- C1 counterexample: in an iteration of the program on one agent with previous
velocity (1, 1) and zero acceleration, the two coordinates of the new velocity
are 0 and 1/2 because the code draws a fresh random scalar per coordinate
(`np.random.rand(num_agents, dim)`); no single per-agent scalar `r` can satisfy
`V_i = r · V_i + a_i` on both coordinates, refuting the per-agent-scalar claim. -/
theorem velocity_rand_not_per_agent_cex :
    (∀ (t : ℕ) (i : Fin 1) (k : Fin 2), cexRNG.velR t i k ∈ Set.Ico (0 : ℝ) 1) ∧
    cexState.V 0 0 = 1 ∧ cexState.V 0 1 = 1 ∧
    ∃ s', gsa_step (zeroScore 2) 1 cexRNG 0 cexState = .ok s' ∧
      s'.V 0 0 = 0 ∧ s'.V 0 1 = 1 / 2 ∧
      ¬ ∃ rv : ℝ, ∀ k : Fin 2, s'.V 0 k = rv * cexState.V 0 k +
        accel (cexRNG.pairR 0) (Gconst 1 0)
          (normMass one_ne0 (iterFit (zeroScore 2) cexState)) cexState.X 0 k := by
  have hacc : ∀ k : Fin 2, accel (cexRNG.pairR 0) (Gconst 1 0)
      (normMass one_ne0 (iterFit (zeroScore 2) cexState)) cexState.X 0 k = 0 :=
    fun k => accel_singleton _ _ _ _ 0 k
  have hv0 : (stepState (zeroScore 2) 1 cexRNG 0 cexState one_ne0).V 0 0 = 0 := by
    show cexRNG.velR 0 0 0 * cexState.V 0 0 + accel (cexRNG.pairR 0) (Gconst 1 0)
      (normMass one_ne0 (iterFit (zeroScore 2) cexState)) cexState.X 0 0 = 0
    rw [hacc 0]
    norm_num [cexRNG, cexState]
  have hv1 : (stepState (zeroScore 2) 1 cexRNG 0 cexState one_ne0).V 0 1 = 1 / 2 := by
    show cexRNG.velR 0 0 1 * cexState.V 0 1 + accel (cexRNG.pairR 0) (Gconst 1 0)
      (normMass one_ne0 (iterFit (zeroScore 2) cexState)) cexState.X 0 1 = 1 / 2
    rw [hacc 1]
    norm_num [cexRNG, cexState, Fin.ext_iff]
  refine ⟨?_, rfl, rfl, stepState (zeroScore 2) 1 cexRNG 0 cexState one_ne0,
    gsa_step_ok (zeroScore 2) 1 cexRNG 0 cexState one_ne0, hv0, hv1, ?_⟩
  · intro t i k
    by_cases hk : k = 0
    · norm_num [cexRNG, hk, Set.mem_Ico]
    · norm_num [cexRNG, hk, Set.mem_Ico]
  · rintro ⟨rv, hrv⟩
    have h0 := hrv 0
    have h1 := hrv 1
    rw [hv0, hacc 0] at h0
    rw [hv1, hacc 1] at h1
    have hc0 : cexState.V 0 0 = 1 := rfl
    have hc1 : cexState.V 0 1 = 1 := rfl
    rw [hc0] at h0
    rw [hc1] at h1
    norm_num at h0 h1
    rw [← h0] at h1
    norm_num at h1

/-- C1 corrected: the velocity update of every iteration multiplies each
coordinate of the previous velocity by its own fresh random scalar — the matrix
`np.random.rand(num_agents, dim)` — so `V_{i,k} = r_{t,i,k} · V_{i,k} + a_{i,k}`
with the random inertia factor fresh per agent AND per coordinate, not a single
scalar per agent. -/
theorem velocity_update_per_coordinate {n d : ℕ} (acc_of : (Fin d → ℤ) → ℝ)
    (max_iter : ℕ) (rng : RNG n d) (t : ℕ) (s : GSAState n d) (hn : n ≠ 0) :
    ∃ s', gsa_step acc_of max_iter rng t s = .ok s' ∧
      ∀ i k, s'.V i k = rng.velR t i k * s.V i k +
        accel (rng.pairR t) (Gconst max_iter t)
          (normMass hn (iterFit acc_of s)) s.X i k :=
  ⟨stepState acc_of max_iter rng t s hn, gsa_step_ok acc_of max_iter rng t s hn,
    fun _ _ => rfl⟩

/-- C1 witness: the corrected velocity-update law at a concrete one-agent,
one-feature initial state. -/
theorem velocity_update_per_coordinate_witness :
    ∃ s', gsa_step (zeroScore 1) 1 (zeroRNG 1 1) 0 (initState 1 1 (zeroRNG 1 1)) =
        .ok s' ∧
      ∀ i k, s'.V i k = (zeroRNG 1 1).velR 0 i k * (initState 1 1 (zeroRNG 1 1)).V i k +
        accel ((zeroRNG 1 1).pairR 0) (Gconst 1 0)
          (normMass one_ne0 (iterFit (zeroScore 1) (initState 1 1 (zeroRNG 1 1))))
          (initState 1 1 (zeroRNG 1 1)).X i k :=
  velocity_update_per_coordinate (zeroScore 1) 1 (zeroRNG 1 1) 0
    (initState 1 1 (zeroRNG 1 1)) one_ne0

end

end GSAVerify
